import Mathlib

/-!
Verification of the csvq relational-algebra engine.

This file is a shallow embedding of the core of the csvq engine
(`csvq/relation.py`, `csvq/algebra.py`, `csvq/structure.py`,
`csvq/functional.py`, `csvq/aggregate.py`, `csvq/api.py`) together with
proofs about the embedded operators.

Modelling conventions:
* python scalar values (the closed type set `{str, int, float}`) are the
  inductive `Value`; floats are modelled as exact rationals `ℚ`;
* a tuple is a `List Value`, a relation is a schema (`List Attr`) plus a
  tuple list;
* python exceptions are `Except`/`Option` results;
* python's stable `list.sort` is modelled by a stable insertion sort over
  the same comparison (any two stable sorts of the same list under the
  same total preorder produce the same output list).
-/

namespace Csvq

/-- The closed scalar type set `{str, int, float}` of `csvq.relation`. -/
inductive Ty where
  | str : Ty
  | int : Ty
  | float : Ty
deriving DecidableEq, Repr

/-- A scalar value: python `str`, `int`, or `float` (floats as exact `ℚ`). -/
inductive Value where
  | vstr : String → Value
  | vint : ℤ → Value
  | vfloat : ℚ → Value
deriving DecidableEq, Repr

instance : Inhabited Value := ⟨Value.vstr ""⟩

/-- Dynamic type of a value (python `type(v)` restricted to the closed set). -/
def tyOf : Value → Ty
  | Value.vstr _ => Ty.str
  | Value.vint _ => Ty.int
  | Value.vfloat _ => Ty.float

/-- `csvq.relation.Attribute`: the name and type of a column.
Equality compares name and type, as `Attribute.__eq__` does. -/
structure Attr where
  colName : String
  ty : Ty
deriving DecidableEq, Repr

/-- A tuple (row) of the engine: an ordered sequence of scalar values. -/
abbrev Tup := List Value

/-- A relation, as consumed and produced by the operators: the attribute
tuple of `csvq.relation.Relation` plus the full tuple sequence that
iterating the relation yields. -/
structure Rel where
  attrs : List Attr
  data : List Tup
deriving DecidableEq, Repr

/-- The derived name → index map of `csvq.relation.Relation.__init__`
(`{a.name(): i for (i, a) in enumerate(attributes)}`): a python dict
comprehension, so a duplicated name resolves to the *last* index.
`none` models the `KeyError` of a missing name. -/
def dictIndex (attrs : List Attr) (n : String) : Option ℕ :=
  attrs.enum.foldl (fun acc p => if p.2.colName = n then some p.1 else acc) none

/-- The column names of a schema, in order (`Relation.names`). -/
def namesOf (attrs : List Attr) : List String :=
  attrs.map Attr.colName

/-! ## Selection (`csvq.algebra.Selection`) -/

/-- One call of `Selection.__next__`: advance the upstream iterator,
skipping tuples that fail the predicate, until a tuple passes (returned
together with the rest of the upstream) or the upstream is exhausted
(`StopIteration`, modelled as `none`). -/
def selectionNext (p : Tup → Bool) : List Tup → Option (Tup × List Tup)
  | [] => none
  | t :: ts => if p t then some (t, ts) else selectionNext p ts

/-- The whole tuple sequence produced by driving `Selection.__next__`
to exhaustion. -/
def selectionRun (p : Tup → Bool) : List Tup → List Tup
  | [] => []
  | t :: ts => if p t then t :: selectionRun p ts else selectionRun p ts

/-- `csvq.algebra.Selection`: schema is the input's schema
(`super().__init__(attributes=in_relation._attributes, ...)`); the tuple
sequence is produced by the skipping loop. -/
def selection (r : Rel) (p : Tup → Bool) : Rel :=
  ⟨r.attrs, selectionRun p r.data⟩

lemma selectionNext_cons (p : Tup → Bool) (t : Tup) (ts : List Tup) :
    selectionNext p (t :: ts) = if p t then some (t, ts) else selectionNext p ts := rfl

/-- Driving the single-step iterator model one call at a time produces the
same sequence as `selectionRun`. -/
lemma selectionRun_eq_next (p : Tup → Bool) :
    ∀ l : List Tup, selectionRun p l =
      match selectionNext p l with
      | none => []
      | some (t, ts) => t :: selectionRun p ts := by
  intro l
  induction l with
  | nil => rfl
  | cons t ts ih =>
      by_cases h : p t
      · simp [selectionRun, selectionNext, h]
      · simp only [selectionRun, selectionNext, h, if_neg, Bool.false_eq_true, if_false]
        exact ih

/-- The skipping loop is exactly `List.filter`. -/
lemma selectionRun_eq_filter (p : Tup → Bool) (l : List Tup) :
    selectionRun p l = l.filter p := by
  induction l with
  | nil => rfl
  | cons t ts ih =>
      by_cases h : p t <;> simp [selectionRun, List.filter, h, ih]

lemma length_filter_add_length_filter_not {α : Type} (p : α → Bool) (l : List α) :
    (l.filter p).length + (l.filter (fun t => !(p t))).length = l.length := by
  induction l with
  | nil => rfl
  | cons t ts ih =>
      by_cases h : p t <;>
        simp [List.filter, h, Nat.succ_eq_add_one, ← ih] <;> omega

/-! ## Rename (`csvq.algebra.Rename`) -/

/-- The per-attribute renaming: `Attribute(substitutions[a.name()], a.type())`
when the dict lookup succeeds, the original attribute on `KeyError`. -/
def renameAttr (subs : String → Option String) (a : Attr) : Attr :=
  match subs a.colName with
  | some n => ⟨n, a.ty⟩
  | none => a

/-- `csvq.algebra.Rename`: the constructor builds the renamed schema and the
tuples pass through unchanged (`__next__` returns `next(self._itr)`).
The constructor performs no duplicate-name check and cannot fail. -/
def renameRel (r : Rel) (subs : String → Option String) : Rel :=
  ⟨r.attrs.map (renameAttr subs), r.data⟩

/-! ## Data extraction (`csvq.api.scalar`, `csvq.api.vector`) -/

/-- `csvq.api.scalar`: `for t in relation: return t[0]` — `Except.error ()`
models the `IndexError` raised when the first tuple has no column 0;
falling out of the loop on an empty relation returns `None`. -/
def scalarOf (data : List Tup) : Except Unit (Option Value) :=
  match data with
  | [] => Except.ok none
  | t :: _ =>
      match t.head? with
      | some v => Except.ok (some v)
      | none => Except.error ()

/-- `csvq.api.vector`: `for t in relation: return t` — the first tuple, or
`None` when the relation is empty. -/
def vectorOf (data : List Tup) : Option Tup :=
  match data with
  | [] => none
  | t :: _ => some t

/-! ## Sample variance (`csvq.aggregate.Variance`) -/

/-- The mutable state of a `csvq.aggregate.Variance` instance:
`self._mean`, `self._n`, `self._m2`. -/
structure VarState where
  mean : ℚ
  n : ℕ
  m2 : ℚ
deriving DecidableEq, Repr

/-- `Variance.__call__`: Welford's one-pass update. -/
def varianceStep (s : VarState) (x : ℚ) : VarState :=
  let n := s.n + 1
  let d := x - s.mean
  let mean := s.mean + d / (n : ℚ)
  let d2 := x - mean
  ⟨mean, n, s.m2 + d * d2⟩

/-- `Variance.__init__`: `mean = 0.0`, `n = 0`, `m2 = 0.0`. -/
def varianceInit : VarState := ⟨0, 0, 0⟩

/-- `Variance.value`: `NaN` (modelled as `none`) for `n == 0`, `0.0` for
`n == 1`, `m2 / (n - 1)` otherwise. -/
def varianceValue (s : VarState) : Option ℚ :=
  if s.n = 0 then none
  else if s.n = 1 then some 0
  else some (s.m2 / ((s.n - 1 : ℕ) : ℚ))

/-- Feeding a whole value sequence into a fresh `Variance` aggregator and
reading off its final value. -/
def varianceOf (xs : List ℚ) : Option ℚ :=
  varianceValue (xs.foldl varianceStep varianceInit)

/-- Arithmetic mean of a list of rationals (`0` for the empty list, since
`ℚ` division by zero is zero). -/
def listMean (xs : List ℚ) : ℚ := xs.sum / (xs.length : ℚ)

/-- Textbook sum of squared deviations from the mean, `Σ (x − mean)²`. -/
def m2Spec (xs : List ℚ) : ℚ := (xs.map (fun x => (x - listMean xs) ^ 2)).sum

lemma sum_map_sq_sub (xs : List ℚ) (a : ℚ) :
    (xs.map (fun x => (x - a) ^ 2)).sum
      = (xs.map (fun x => x ^ 2)).sum - 2 * a * xs.sum + (xs.length : ℚ) * a ^ 2 := by
  induction xs with
  | nil => simp
  | cons x xs ih =>
      simp only [List.map_cons, List.sum_cons, List.length_cons, ih]
      push_cast
      ring

/-- The Welford fold maintains: `n` is the number of values seen, `mean` is
their arithmetic mean, and `m2` is the sum of squared deviations from that
mean. -/
lemma welford_invariant (xs : List ℚ) :
    (xs.foldl varianceStep varianceInit).n = xs.length ∧
    (xs.foldl varianceStep varianceInit).mean = listMean xs ∧
    (xs.foldl varianceStep varianceInit).m2 = m2Spec xs := by
  induction xs using List.reverseRecOn with
  | nil => simp [varianceInit, listMean, m2Spec]
  | append_singleton ys x ih =>
      obtain ⟨hn, hm, h2⟩ := ih
      rw [List.foldl_append]
      rcases Nat.eq_zero_or_pos ys.length with hL | hL
      · have hys : ys = [] := List.length_eq_zero.mp hL
        subst hys
        simp only [List.foldl_nil] at *
        refine ⟨by simp [varianceStep, varianceInit], ?_, ?_⟩
        · simp [varianceStep, varianceInit, listMean]
        · simp [varianceStep, varianceInit, m2Spec, listMean]
      · have hys : ys ≠ [] := by
          intro h; subst h; simp at hL
        have hLQ : ((ys.length : ℚ)) ≠ 0 := by
          exact_mod_cast Nat.pos_iff_ne_zero.mp hL
        have hLQ1 : ((ys.length : ℚ) + 1) ≠ 0 := by positivity
        set L : ℚ := (ys.length : ℚ) with hLdef
        set S : ℚ := ys.sum with hSdef
        refine ⟨by simp [varianceStep, hn], ?_, ?_⟩
        · show (varianceStep (ys.foldl varianceStep varianceInit) x).mean
            = listMean (ys ++ [x])
          simp only [varianceStep, hn, hm, listMean, List.sum_append,
            List.length_append, List.sum_cons, List.sum_nil, List.length_cons,
            List.length_nil, add_zero]
          push_cast
          field_simp
          ring
        · show (varianceStep (ys.foldl varianceStep varianceInit) x).m2
            = m2Spec (ys ++ [x])
          simp only [varianceStep, hn, hm, h2, m2Spec, listMean,
            List.map_append, List.sum_append, List.map_cons, List.map_nil,
            List.sum_cons, List.sum_nil, add_zero, List.length_append,
            List.length_cons, List.length_nil, sum_map_sq_sub]
          push_cast
          field_simp
          ring

/-- C3: the variance aggregator computes the sample variance. For every
value sequence, the final value is `NaN` (modelled as `none`) on zero
values, exactly `0` on one value, and `M2 / (n − 1)` — which by the proved
Welford invariant equals the textbook `Σ (x − mean)² / (n − 1)` — on `n ≥ 2`
values; in particular, the values `[10, 20, 30]` yield sample variance
`100`. -/
theorem C3_variance_welford :
    (∀ xs : List ℚ,
      varianceOf xs =
        if xs.length = 0 then none
        else if xs.length = 1 then some 0
        else some (m2Spec xs / ((xs.length - 1 : ℕ) : ℚ))) ∧
    varianceOf [10, 20, 30] = some 100 := by
  have main : ∀ xs : List ℚ,
      varianceOf xs =
        if xs.length = 0 then none
        else if xs.length = 1 then some 0
        else some (m2Spec xs / ((xs.length - 1 : ℕ) : ℚ)) := by
    intro xs
    obtain ⟨hn, _, h2⟩ := welford_invariant xs
    simp only [varianceOf, varianceValue, hn, h2]
  refine ⟨main, ?_⟩
  rw [main [10, 20, 30]]
  norm_num [m2Spec, listMean]

/-! ## Update (`csvq.functional.Update`) -/

/-- Repeated in-place assignment `tprime[i] = v` over a list of
(index, value) pairs, starting from the tuple being updated. -/
def setPairs (ps : List (ℕ × Value)) (t0 : Tup) : Tup :=
  ps.foldl (fun a p => a.set p.1 p.2) t0

/-- `Update.__next__`: copy the input tuple, then for each resolved column
index and function, assign `tprime[idx[i]] = f(Row(self, t))` — each `f` is
applied to the *original* tuple `t`, never to the partially updated copy. -/
def updateRow (idxs : List ℕ) (fs : List (Tup → Value)) (t : Tup) : Tup :=
  (idxs.zip fs).foldl (fun a p => a.set p.1 (p.2 t)) t

/-- `csvq.functional.Update`: schema and index map pass through; the column
indices are resolved once at construction (`self.index(k) for k in fd`,
`KeyError` modelled by the irrelevant default `0`, excluded by the
theorem's hypotheses); every tuple is rewritten by `updateRow`. -/
def updateRel (r : Rel) (fd : List (String × (Tup → Value))) : Rel :=
  ⟨r.attrs,
   r.data.map (updateRow (fd.map (fun p => (dictIndex r.attrs p.1).getD 0))
                         (fd.map Prod.snd))⟩

lemma updateRow_eq_setPairs (idxs : List ℕ) (fs : List (Tup → Value)) (t : Tup) :
    updateRow idxs fs t = setPairs ((idxs.zip fs).map (fun p => (p.1, p.2 t))) t := by
  unfold updateRow setPairs
  rw [List.foldl_map]

lemma setPairs_length (ps : List (ℕ × Value)) (t0 : Tup) :
    (setPairs ps t0).length = t0.length := by
  induction ps generalizing t0 with
  | nil => rfl
  | cons p rest ih => simpa [setPairs, List.foldl_cons] using ih (t0.set p.1 p.2)

lemma setPairs_getElem?_notMem (ps : List (ℕ × Value)) (t0 : Tup) (j : ℕ)
    (h : ∀ p ∈ ps, p.1 ≠ j) :
    (setPairs ps t0)[j]? = t0[j]? := by
  induction ps generalizing t0 with
  | nil => rfl
  | cons p rest ih =>
      have hstep : (setPairs (p :: rest) t0) = setPairs rest (t0.set p.1 p.2) := rfl
      rw [hstep, ih (t0.set p.1 p.2) (fun q hq => h q (List.mem_cons_of_mem _ hq)),
        List.getElem?_set, if_neg (h p (List.mem_cons_self _ _))]

lemma setPairs_getElem?_mem :
    ∀ (ps : List (ℕ × Value)) (t0 : Tup) (i : ℕ) (v : Value),
      (ps.map Prod.fst).Nodup → (i, v) ∈ ps → i < t0.length →
      (setPairs ps t0)[i]? = some v := by
  intro ps
  induction ps with
  | nil =>
      intro t0 i v _ hmem _
      cases hmem
  | cons p rest ih =>
      intro t0 i v hnd hmem hi
      have hstep : (setPairs (p :: rest) t0) = setPairs rest (t0.set p.1 p.2) := rfl
      simp only [List.map_cons, List.nodup_cons] at hnd
      rcases List.mem_cons.mp hmem with heq | hrest
      · have hp1 : p.1 = i := by rw [← heq]
        have hp2 : p.2 = v := by rw [← heq]
        have hn : ∀ q ∈ rest, q.1 ≠ i := by
          intro q hq hqi
          exact hnd.1 (by rw [hp1, ← hqi]; exact List.mem_map_of_mem Prod.fst hq)
        rw [hstep, setPairs_getElem?_notMem rest _ i hn, List.getElem?_set, hp1, hp2]
        simp [hi]
      · exact hstep ▸ ih (t0.set p.1 p.2) i v hnd.2 hrest (by simpa using hi)

lemma foldl_dictIndex_eq_some (l : List (ℕ × Attr)) (n : String) (acc : Option ℕ)
    (i : ℕ)
    (h : l.foldl (fun acc p => if p.2.colName = n then some p.1 else acc) acc
      = some i) :
    acc = some i ∨ ∃ a : Attr, (i, a) ∈ l ∧ a.colName = n := by
  induction l generalizing acc with
  | nil => exact Or.inl h
  | cons p rest ih =>
      rcases ih _ h with hacc | ⟨a, hm, hn⟩
      · have hacc' : (if p.2.colName = n then some p.1 else acc) = some i := hacc
        by_cases hp : p.2.colName = n
        · rw [if_pos hp] at hacc'
          refine Or.inr ⟨p.2, ?_, hp⟩
          have hpi : (i, p.2) = p := by
            have h1 : p.1 = i := by simpa using hacc'
            exact Prod.ext h1.symm rfl
          exact hpi ▸ List.mem_cons_self _ _
        · rw [if_neg hp] at hacc'
          exact Or.inl hacc'
      · exact Or.inr ⟨a, List.mem_cons_of_mem _ hm, hn⟩

/-- If the name → index dict resolves `n` to `i`, then column `i` exists
and carries the name `n`. -/
lemma dictIndex_eq_some {attrs : List Attr} {n : String} {i : ℕ}
    (h : dictIndex attrs n = some i) :
    ∃ a : Attr, attrs[i]? = some a ∧ a.colName = n := by
  rcases foldl_dictIndex_eq_some attrs.enum n none i h with hacc | ⟨a, hm, hn⟩
  · cases hacc
  · exact ⟨a, List.mem_enum_iff_getElem?.mp hm, hn⟩

lemma dictIndex_lt {attrs : List Attr} {n : String} {i : ℕ}
    (h : dictIndex attrs n = some i) : i < attrs.length := by
  obtain ⟨a, ha, -⟩ := dictIndex_eq_some h
  exact (List.getElem?_eq_some.mp ha).1

lemma dictIndex_inj {attrs : List Attr} {n1 n2 : String} {i : ℕ}
    (h1 : dictIndex attrs n1 = some i) (h2 : dictIndex attrs n2 = some i) :
    n1 = n2 := by
  obtain ⟨a, ha, hn1⟩ := dictIndex_eq_some h1
  obtain ⟨b, hb, hn2⟩ := dictIndex_eq_some h2
  rw [ha] at hb
  cases hb
  rw [← hn1, hn2]

/-- C9: the update operator keeps the schema, keeps the tuple count, and
rewrites each tuple so that every named column holds its function applied
to the original, pre-update row, while every other column is unchanged. -/
theorem C9_update_uses_original_row (r : Rel)
    (fd : List (String × (Tup → Value)))
    (hkeys : (fd.map Prod.fst).Nodup)
    (hsome : ∀ p ∈ fd, (dictIndex r.attrs p.1).isSome)
    (hconf : ∀ t ∈ r.data, t.length = r.attrs.length) :
    (updateRel r fd).attrs = r.attrs ∧
    (updateRel r fd).data.length = r.data.length ∧
    ∀ (ti : ℕ) (t : Tup), r.data[ti]? = some t →
      ∃ u : Tup, (updateRel r fd).data[ti]? = some u ∧
        u.length = t.length ∧
        (∀ (k : String) (f : Tup → Value) (i : ℕ),
          (k, f) ∈ fd → dictIndex r.attrs k = some i → u[i]? = some (f t)) ∧
        (∀ j : ℕ, (∀ p ∈ fd, dictIndex r.attrs p.1 ≠ some j) →
          u[j]? = t[j]?) := by
  refine ⟨rfl, by simp [updateRel], ?_⟩
  intro ti t ht
  set gk : String → ℕ := fun k => (dictIndex r.attrs k).getD 0 with hgk
  set idxs : List ℕ := fd.map (fun p => gk p.1) with hidxs
  set fs : List (Tup → Value) := fd.map Prod.snd with hfs
  have hlen_if : idxs.length = fs.length := by simp [hidxs, hfs]
  refine ⟨updateRow idxs fs t, ?_, ?_, ?_, ?_⟩
  · simp only [updateRel, List.getElem?_map, ht, Option.map_some]
    rfl
  · rw [updateRow_eq_setPairs, setPairs_length]
  · -- mapped columns: value of the function on the original tuple
    intro k f i hkf hdi
    rw [updateRow_eq_setPairs]
    have htmem : t ∈ r.data := List.mem_iff_getElem?.mpr ⟨ti, ht⟩
    have hnd : (((idxs.zip fs).map (fun p => (p.1, p.2 t))).map Prod.fst).Nodup := by
      have h1 : ((idxs.zip fs).map (fun p => (p.1, p.2 t))).map Prod.fst
          = (idxs.zip fs).map Prod.fst := by
        rw [List.map_map]
        rfl
      rw [h1, List.map_fst_zip _ _ (le_of_eq hlen_if), hidxs]
      have h2 : fd.map (fun p => gk p.1) = (fd.map Prod.fst).map gk := by
        rw [List.map_map]
        rfl
      rw [h2]
      refine List.Nodup.map_on ?_ hkeys
      intro k1 hk1 k2 hk2 heq
      obtain ⟨p1, hp1, hp1k⟩ := List.mem_map.mp hk1
      obtain ⟨p2, hp2, hp2k⟩ := List.mem_map.mp hk2
      obtain ⟨i1, hi1⟩ := Option.isSome_iff_exists.mp (hsome p1 hp1)
      obtain ⟨i2, hi2⟩ := Option.isSome_iff_exists.mp (hsome p2 hp2)
      rw [hp1k] at hi1
      rw [hp2k] at hi2
      have e1 : gk k1 = i1 := by simp [hgk, hi1]
      have e2 : gk k2 = i2 := by simp [hgk, hi2]
      rw [e1, e2] at heq
      subst heq
      exact dictIndex_inj hi1 hi2
    obtain ⟨j, hj⟩ := List.mem_iff_getElem?.mp hkf
    have hij : idxs[j]? = some i := by
      rw [hidxs, List.getElem?_map, hj]
      simp [hgk, hdi]
    have hfj : fs[j]? = some f := by
      rw [hfs, List.getElem?_map, hj]
      rfl
    have hzip : (idxs.zip fs)[j]? = some (i, f) :=
      List.getElem?_zip_eq_some.mpr ⟨hij, hfj⟩
    have hmem : (i, f t) ∈ (idxs.zip fs).map (fun p => (p.1, p.2 t)) := by
      refine List.mem_iff_getElem?.mpr ⟨j, ?_⟩
      rw [List.getElem?_map, hzip]
      rfl
    exact setPairs_getElem?_mem _ t i (f t) hnd hmem
      (by rw [hconf t htmem]; exact dictIndex_lt hdi)
  · -- untouched columns pass through
    intro j hj
    rw [updateRow_eq_setPairs]
    refine setPairs_getElem?_notMem _ t j ?_
    intro q hq
    obtain ⟨z, hz, hzq⟩ := List.mem_map.mp hq
    have hz1 : z.1 ∈ idxs := (List.of_mem_zip hz).1
    obtain ⟨p, hp, hpz⟩ := List.mem_map.mp (hidxs ▸ hz1)
    obtain ⟨ip, hip⟩ := Option.isSome_iff_exists.mp (hsome p hp)
    intro hcontra
    have : q.1 = z.1 := by rw [← hzq]
    rw [this, ← hpz, hgk] at hcontra
    simp only [hip, Option.getD_some] at hcontra
    exact hj p hp (hcontra ▸ hip)

/-- Input relation of the C9 witness: two integer columns. -/
def updExampleRel : Rel :=
  ⟨[⟨"A", Ty.int⟩, ⟨"B", Ty.int⟩], [[Value.vint 1, Value.vint 2]]⟩

/-- Update map of the C9 witness: `A` becomes the original row's `B` value
and `B` becomes the original row's `A` value — a swap, which only works if
both functions see the pre-update row. -/
def updExampleFd : List (String × (Tup → Value)) :=
  [("A", fun t => t.getD 1 default), ("B", fun t => t.getD 0 default)]

/-- C9 witness: updating `(1, 2)` with the swap map yields a tuple whose
column `A` is `2` and whose column `B` is `1`. -/
theorem C9_update_uses_original_row_witness :
    ∃ u : Tup, (updateRel updExampleRel updExampleFd).data[0]? = some u ∧
      u[0]? = some (Value.vint 2) ∧ u[1]? = some (Value.vint 1) := by
  have h := (C9_update_uses_original_row updExampleRel updExampleFd
      (by simp [updExampleFd])
      (by
        intro p hp
        simp only [updExampleFd] at hp
        rcases List.mem_cons.mp hp with h | hp2
        · subst h; rfl
        · rcases List.mem_cons.mp hp2 with h | h3
          · subst h; rfl
          · cases h3)
      (by
        intro t htd
        simp only [updExampleRel, List.mem_singleton] at htd
        subst htd
        rfl)).2.2 0 [Value.vint 1, Value.vint 2] rfl
  obtain ⟨u, hu, -, hmap, -⟩ := h
  refine ⟨u, hu, ?_, ?_⟩
  · have := hmap "A" (fun t => t.getD 1 default) 0 (by simp [updExampleFd]) rfl
    simpa using this
  · have := hmap "B" (fun t => t.getD 0 default) 1 (by simp [updExampleFd]) rfl
    simpa using this

/-! ## Aggregation schema (`csvq.aggregate.Aggregate.__init__`) -/

/-- The six aggregator kinds shipped with `csvq.aggregate`. -/
inductive AggKind where
  | count : AggKind
  | maxAgg : AggKind
  | meanAgg : AggKind
  | minAgg : AggKind
  | sumAgg : AggKind
  | varianceAgg : AggKind
deriving DecidableEq, Repr

/-- `f.__name__` of the aggregator class, used in the output column name. -/
def aggName : AggKind → String
  | AggKind.count => "Count"
  | AggKind.maxAgg => "Max"
  | AggKind.meanAgg => "Mean"
  | AggKind.minAgg => "Min"
  | AggKind.sumAgg => "Sum"
  | AggKind.varianceAgg => "Variance"

/-- The `value_type` static method of each aggregator class: `Count`
declares `int`; `Max`, `Mean`, `Min`, `Sum` and also `Variance` return
`input_type` unchanged (`aggregate.py` lines 152–154). -/
def valueType : AggKind → Ty → Ty
  | AggKind.count, _ => Ty.int
  | _, t => t

/-- `Relation.attribute(name)`: the attribute at the dict-resolved index. -/
def attrOf (attrs : List Attr) (n : String) : Option Attr :=
  (dictIndex attrs n).bind (fun i => attrs[i]?)

/-- `Aggregate.__init__`'s output schema: for each `(n, f)` pair, one column
named `n + "_" + f.__name__` typed `f.value_type(input_type)` where
`input_type` is column `n`'s declared type in the input relation. -/
def aggregateAttrs (r : Rel) (fs : List (String × AggKind)) : List Attr :=
  fs.map (fun p =>
    ⟨p.1 ++ "_" ++ aggName p.2,
     valueType p.2 (((attrOf r.attrs p.1).map Attr.ty).getD Ty.str)⟩)

/-- Input of the C4 counterexample: one integer column `x`. -/
def aggExampleRel : Rel := ⟨[⟨"x", Ty.int⟩], [[Value.vint 1], [Value.vint 2]]⟩

/-- C4 counterexample: the claim asserts the variance aggregator's declared
output type is floating-point regardless of the source column's type, but
`Variance.value_type` returns the input type unchanged: aggregating the
integer column `x` with `Variance` declares the column
`x_Variance` with type `int`, not `float`. -/
theorem C4_aggregate_variance_type_counterexample :
    aggregateAttrs aggExampleRel [("x", AggKind.varianceAgg)] =
      [⟨"x_Variance", Ty.int⟩] ∧
    Ty.int ≠ Ty.float := by
  exact ⟨rfl, by decide⟩

/-- C4 amended: the aggregation operator's output schema has one column per
`(source, aggregator)` pair, named `<source>_<aggregator>`, whose declared
type is integer for the count aggregator and the source column's declared
type for min, max, mean, sum — and also for variance (whose runtime value
is nevertheless floating-point). -/
theorem C4_aggregate_schema (r : Rel) (fs : List (String × AggKind)) :
    (aggregateAttrs r fs).length = fs.length ∧
    ∀ (i : ℕ) (n : String) (k : AggKind) (a : Attr),
      fs[i]? = some (n, k) → attrOf r.attrs n = some a →
      (aggregateAttrs r fs)[i]? =
        some ⟨n ++ "_" ++ aggName k,
              if k = AggKind.count then Ty.int else a.ty⟩ := by
  refine ⟨by simp [aggregateAttrs], ?_⟩
  intro i n k a hi ha
  simp only [aggregateAttrs, List.getElem?_map, hi, Option.map_some, ha]
  cases k <;> simp [valueType, ha]

/-- C4 witness: the amended schema rule applied to the concrete integer
column aggregated with `Variance`. -/
theorem C4_aggregate_schema_witness :
    (aggregateAttrs aggExampleRel [("x", AggKind.varianceAgg)])[0]? =
      some ⟨"x_Variance", Ty.int⟩ := by
  have h := (C4_aggregate_schema aggExampleRel [("x", AggKind.varianceAgg)]).2
    0 "x" AggKind.varianceAgg ⟨"x", Ty.int⟩ rfl rfl
  simpa using h

/-! ## Vertical concatenation (`csvq.structure.VCat`) -/

/-- Python `set(xs) == set(ys)` on attribute lists. -/
def sameAttrSet (a b : List Attr) : Bool :=
  a.all (fun x => b.contains x) && b.all (fun x => a.contains x)

/-- `csvq.structure.VCat`: construction checks every input's attribute *set*
against the first input's (`TypeError` otherwise), takes the schema from the
first input, and chains the inputs' tuple sequences unchanged
(`itertools.chain.from_iterable`). -/
def vcatRel (r1 : Rel) (rest : List Rel) : Except String Rel :=
  if rest.all (fun r => sameAttrSet r1.attrs r.attrs) then
    Except.ok ⟨r1.attrs, (r1 :: rest).flatMap Rel.data⟩
  else
    Except.error "Incompatible attribute sets"

/-- First input of the C5 failing case: schema `(A: int, B: str)`. -/
def vcatExample1 : Rel :=
  ⟨[⟨"A", Ty.int⟩, ⟨"B", Ty.str⟩], [[Value.vint 1, Value.vstr "a"]]⟩

/-- Second input of the C5 failing case: same attribute *set* but in the
reversed column order `(B: str, A: int)`. -/
def vcatExample2 : Rel :=
  ⟨[⟨"B", Ty.str⟩, ⟨"A", Ty.int⟩], [[Value.vstr "b", Value.vint 2]]⟩

/-- C5: `VCat` accepts inputs whose column order differs from the first
input's (only the attribute *sets* are compared) but chains their tuples
*unpermuted*. On the failing input the second output tuple is
`("b", 2)` — the value `"b"` of dynamic type `str` sits under the output
schema's column 0 `A: int`, so the output tuple does not conform to the
output schema, contradicting the claimed invariant (and `vcat`'s own
docstring "The order of columns is determined by the first relation"): the
conforming tuple would be `(2, "b")`. -/
theorem C5_vcat_unpermuted_tuples :
    vcatRel vcatExample1 [vcatExample2] =
      Except.ok ⟨[⟨"A", Ty.int⟩, ⟨"B", Ty.str⟩],
        [[Value.vint 1, Value.vstr "a"], [Value.vstr "b", Value.vint 2]]⟩ ∧
    tyOf (Value.vstr "b") ≠ Ty.int ∧
    [Value.vstr "b", Value.vint 2] ≠ [Value.vint 2, Value.vstr "b"] := by
  refine ⟨rfl, by decide, by decide⟩

/-! ## Horizontal concatenation (`csvq.structure.HCat`) -/

/-- How an `HCat` iteration ends: clean `StopIteration` when every input is
exhausted at the same step, or the `RuntimeError("Unequal tuple counts")`
when only a strict, non-empty subset of the inputs is exhausted. -/
inductive HcatStop where
  | done : HcatStop
  | rowCountMismatch : HcatStop
deriving DecidableEq, Repr

/-- Driving `HCat.__next__` to termination. Each step draws one tuple from
every input (`next(itr, None)`): if some but not all inputs are exhausted
the step raises the row-count mismatch; if all are exhausted iteration
stops cleanly; otherwise the step emits the concatenation of the drawn
tuples in input order. Returns the emitted tuple sequence together with how
iteration ended. -/
def hcatRun (l1 : List Tup) (rest : List (List Tup)) : List Tup × HcatStop :=
  if h : ((l1 :: rest).any (fun l => l.isEmpty)) = true then
    if ((l1 :: rest).all (fun l => l.isEmpty)) = true then ([], HcatStop.done)
    else ([], HcatStop.rowCountMismatch)
  else
    let t := ((l1 :: rest).map (fun l => l.headD [])).flatten
    let r := hcatRun l1.tail (rest.map List.tail)
    (t :: r.1, r.2)
termination_by l1.length
decreasing_by
  simp only [List.any_cons, Bool.or_eq_true, not_or] at h
  have h1 : l1 ≠ [] := by
    intro he
    exact h.1 (by simp [he])
  have h2 := List.length_tail l1
  have h3 : 0 < l1.length := List.length_pos.mpr h1
  omega

lemma hcatRun_eq (l1 : List Tup) (rest : List (List Tup)) :
    hcatRun l1 rest =
      if ((l1 :: rest).any (fun l => l.isEmpty)) = true then
        if ((l1 :: rest).all (fun l => l.isEmpty)) = true then ([], HcatStop.done)
        else ([], HcatStop.rowCountMismatch)
      else
        ((((l1 :: rest).map (fun l => l.headD [])).flatten) ::
            (hcatRun l1.tail (rest.map List.tail)).1,
         (hcatRun l1.tail (rest.map List.tail)).2) := by
  rw [hcatRun]
  split <;> rfl

lemma headD_eq_getD_zero (l : List Tup) : l.headD [] = l.getD 0 [] := by
  cases l <;> rfl

lemma tail_getD (l : List Tup) (h : l ≠ []) (i : ℕ) :
    l.tail.getD i [] = l.getD (i + 1) [] := by
  cases l with
  | nil => exact absurd rfl h
  | cons x xs => rfl

/-- C8: horizontal concatenation draws tuples in lock-step. The `i`-th
output tuple exists exactly when every input has an `i`-th tuple, and then
equals the concatenation of the inputs' `i`-th tuples in input order;
iteration ends cleanly exactly when all inputs have the same tuple count,
and otherwise fails with the row-count mismatch at the step where the
shorter inputs are exhausted. -/
theorem C8_hcat_lockstep (l1 : List Tup) (rest : List (List Tup)) :
    (∀ i : ℕ, (∀ l ∈ l1 :: rest, i < l.length) →
      (hcatRun l1 rest).1[i]? =
        some (((l1 :: rest).map (fun l => l.getD i [])).flatten)) ∧
    (∀ i : ℕ, i < (hcatRun l1 rest).1.length ↔ (∀ l ∈ l1 :: rest, i < l.length)) ∧
    ((hcatRun l1 rest).2 =
      if ((l1 :: rest).all (fun l => l.length == l1.length)) = true then
        HcatStop.done
      else HcatStop.rowCountMismatch) := by
  induction l1 generalizing rest with
  | nil =>
      have hpos : ((([] : List Tup) :: rest).any (fun l => l.isEmpty)) = true := by
        simp
      have hout : (hcatRun [] rest).1 = [] := by
        rw [hcatRun_eq, if_pos hpos]
        split <;> rfl
      refine ⟨?_, ?_, ?_⟩
      · intro i hi
        exact absurd (hi [] (List.mem_cons_self _ _)) (by simp)
      · intro i
        rw [hout]
        simp only [List.length_nil]
        constructor
        · intro h
          exact absurd h (by omega)
        · intro h
          exact absurd (h [] (List.mem_cons_self _ _)) (by simp)
      · rw [hcatRun_eq, if_pos hpos]
        by_cases hall : (([] :: rest).all (fun l => l.isEmpty)) = true
        · have hall2 : (([] :: rest).all
              (fun l => l.length == List.length ([] : List Tup))) = true := by
            refine List.all_eq_true.mpr ?_
            intro l hl
            have hle := List.isEmpty_iff.mp (List.all_eq_true.mp hall l hl)
            subst hle
            rfl
          rw [if_pos hall, if_pos hall2]
        · have hall2 : ¬ (([] :: rest).all
              (fun l => l.length == List.length ([] : List Tup))) = true := by
            intro h2
            refine hall (List.all_eq_true.mpr ?_)
            intro l hl
            have hlen := beq_iff_eq.mp (List.all_eq_true.mp h2 l hl)
            simp only [List.length_nil] at hlen
            exact List.isEmpty_iff.mpr (List.length_eq_zero.mp hlen)
          rw [if_neg hall, if_neg hall2]
  | cons x l1' ih =>
      by_cases hany : (((x :: l1') :: rest).any (fun l => l.isEmpty)) = true
      · -- a strict, non-empty subset of the inputs is already exhausted
        obtain ⟨le, hle, hlee⟩ := List.any_eq_true.mp hany
        have hle' : le = [] := List.isEmpty_iff.mp hlee
        subst hle'
        have hmem : ([] : List Tup) ∈ rest := by
          rcases List.mem_cons.mp hle with h | h
          · cases h
          · exact h
        have hnall : ¬ (((x :: l1') :: rest).all (fun l => l.isEmpty)) = true := by
          intro hall
          have := List.all_eq_true.mp hall (x :: l1') (List.mem_cons_self _ _)
          simp at this
        have hrun : hcatRun (x :: l1') rest = ([], HcatStop.rowCountMismatch) := by
          rw [hcatRun_eq, if_pos hany, if_neg hnall]
        refine ⟨?_, ?_, ?_⟩
        · intro i hi
          exact absurd (hi [] (List.mem_cons_of_mem _ hmem)) (by simp)
        · intro i
          rw [hrun]
          simp only [List.length_nil]
          constructor
          · intro h
            exact absurd h (by omega)
          · intro h
            exact absurd (h [] (List.mem_cons_of_mem _ hmem)) (by simp)
        · rw [hrun]
          have hcf : ¬ (((x :: l1') :: rest).all
              (fun l => l.length == (x :: l1').length)) = true := by
            intro hall
            have := List.all_eq_true.mp hall [] (List.mem_cons_of_mem _ hmem)
            simp at this
          rw [if_neg hcf]
      · -- no input is exhausted: draw one tuple from each and recurse
        have hno : ∀ l ∈ (x :: l1') :: rest, l ≠ [] := by
          intro l hl hleq
          exact hany (List.any_eq_true.mpr ⟨l, hl, by simp [hleq]⟩)
        have hnor : ∀ l ∈ rest, l ≠ [] :=
          fun l hl => hno l (List.mem_cons_of_mem _ hl)
        have hrun : hcatRun (x :: l1') rest =
            ((((x :: l1') :: rest).map (fun l => l.headD [])).flatten ::
              (hcatRun l1' (rest.map List.tail)).1,
             (hcatRun l1' (rest.map List.tail)).2) := by
          rw [hcatRun_eq, if_neg hany]
          rfl
        obtain ⟨iha, ihb, ihc⟩ := ih (rest.map List.tail)
        -- the i-th tuples of the tails are the (i+1)-st tuples of the inputs
        have hcorr : ∀ i : ℕ,
            ((l1' :: rest.map List.tail).map (fun l => l.getD i [])) =
            (((x :: l1') :: rest).map (fun l => l.getD (i + 1) [])) := by
          intro i
          simp only [List.map_cons, List.map_map, List.getD_cons_succ]
          refine congrArg _ ?_
          refine List.map_congr_left ?_
          intro l hl
          exact tail_getD l (hnor l hl) i
        have hlencorr : ∀ i : ℕ,
            (∀ l ∈ l1' :: rest.map List.tail, i < l.length) ↔
            (∀ l ∈ (x :: l1') :: rest, i + 1 < l.length) := by
          intro i
          constructor
          · intro h l hl
            rcases List.mem_cons.mp hl with he | hm
            · subst he
              have := h l1' (List.mem_cons_self _ _)
              simpa [Nat.succ_lt_succ_iff] using this
            · have := h l.tail
                (List.mem_cons_of_mem _ (List.mem_map_of_mem List.tail hm))
              have hlt := List.length_tail l
              have hpos : 0 < l.length := List.length_pos.mpr (hnor l hm)
              omega
          · intro h l hl
            rcases List.mem_cons.mp hl with he | hm
            · have hx := h (x :: l1') (List.mem_cons_self _ _)
              rw [he]
              simp only [List.length_cons] at hx
              omega
            · obtain ⟨l0, hl0, hl0t⟩ := List.mem_map.mp hm
              have hx := h l0 (List.mem_cons_of_mem _ hl0)
              have hlt := List.length_tail l0
              rw [← hl0t]
              omega
        refine ⟨?_, ?_, ?_⟩
        · intro i hi
          rw [hrun]
          cases i with
          | zero =>
              simp only [List.getElem?_cons_zero, Option.some.injEq]
              refine congrArg _ ?_
              refine List.map_congr_left ?_
              intro l _
              exact headD_eq_getD_zero l
          | succ i =>
              simp only [List.getElem?_cons_succ]
              rw [iha i ((hlencorr i).mpr hi), hcorr i]
        · intro i
          rw [hrun]
          cases i with
          | zero =>
              simp only [List.length_cons]
              constructor
              · intro _ l hl
                exact List.length_pos.mpr (hno l hl)
              · intro _
                omega
          | succ i =>
              simp only [List.length_cons, Nat.succ_lt_succ_iff]
              rw [ihb i]
              exact hlencorr i
        · rw [hrun]
          simp only
          rw [ihc]
          by_cases hc : ∀ l ∈ (x :: l1') :: rest, l.length = (x :: l1').length
          · have h1 : ((l1' :: rest.map List.tail).all
                (fun l => l.length == l1'.length)) = true := by
              refine List.all_eq_true.mpr ?_
              intro l hl
              rcases List.mem_cons.mp hl with he | hm
              · subst he
                simp
              · obtain ⟨l0, hl0, hl0t⟩ := List.mem_map.mp hm
                subst hl0t
                have := hc l0 (List.mem_cons_of_mem _ hl0)
                have hlt := List.length_tail l0
                simp only [List.length_cons] at this
                refine beq_iff_eq.mpr ?_
                omega
            have h2 : (((x :: l1') :: rest).all
                (fun l => l.length == (x :: l1').length)) = true := by
              refine List.all_eq_true.mpr ?_
              intro l hl
              exact beq_iff_eq.mpr (hc l hl)
            rw [if_pos h1, if_pos h2]
          · have h1 : ¬ ((l1' :: rest.map List.tail).all
                (fun l => l.length == l1'.length)) = true := by
              intro hall
              refine hc ?_
              intro l hl
              rcases List.mem_cons.mp hl with he | hm
              · subst he
                rfl
              · have := beq_iff_eq.mp (List.all_eq_true.mp hall l.tail
                  (List.mem_cons_of_mem _ (List.mem_map_of_mem List.tail hm)))
                have hlt := List.length_tail l
                have hpos : 0 < l.length := List.length_pos.mpr (hnor l hm)
                simp only [List.length_cons]
                omega
            have h2 : ¬ (((x :: l1') :: rest).all
                (fun l => l.length == (x :: l1').length)) = true := by
              intro hall
              exact h1 (by
                refine List.all_eq_true.mpr ?_
                intro l hl
                rcases List.mem_cons.mp hl with he | hm
                · subst he
                  simp
                · obtain ⟨l0, hl0, hl0t⟩ := List.mem_map.mp hm
                  subst hl0t
                  have := beq_iff_eq.mp (List.all_eq_true.mp hall l0
                    (List.mem_cons_of_mem _ hl0))
                  have hlt := List.length_tail l0
                  simp only [List.length_cons] at this
                  refine beq_iff_eq.mpr ?_
                  omega)
            rw [if_neg h1, if_neg h2]

/-- C8 witness: concatenating a two-tuple input with a matching two-tuple
input emits the two concatenated rows and stops cleanly, while pairing it
with a one-tuple input emits the first concatenated row's step result and
fails with the row-count mismatch. -/
theorem C8_hcat_lockstep_witness :
    (hcatRun [[Value.vint 1], [Value.vint 2]] [[[Value.vstr "a"], [Value.vstr "b"]]]).1[0]? =
      some [Value.vint 1, Value.vstr "a"] ∧
    (hcatRun [[Value.vint 1], [Value.vint 2]] [[[Value.vstr "a"], [Value.vstr "b"]]]).2 =
      HcatStop.done ∧
    (hcatRun [[Value.vint 1], [Value.vint 2]] [[[Value.vstr "a"]]]).2 =
      HcatStop.rowCountMismatch := by
  refine ⟨?_, ?_, ?_⟩
  · have h := (C8_hcat_lockstep [[Value.vint 1], [Value.vint 2]]
      [[[Value.vstr "a"], [Value.vstr "b"]]]).1 0 (by
        intro l hl
        rcases List.mem_cons.mp hl with he | hm
        · subst he; decide
        · rcases List.mem_cons.mp hm with he | hn
          · subst he; decide
          · cases hn)
    simpa using h
  · have h := (C8_hcat_lockstep [[Value.vint 1], [Value.vint 2]]
      [[[Value.vstr "a"], [Value.vstr "b"]]]).2.2
    simpa using h
  · have h := (C8_hcat_lockstep [[Value.vint 1], [Value.vint 2]]
      [[[Value.vstr "a"]]]).2.2
    simpa using h

/-! ## Materialization and sort (`csvq.relation.InMemoryRelation.sort`)

Python's `list.sort` is a *stable* sort; two stable sorts of the same list
under the same total preorder produce the same output list, so the builtin
is modelled by a stable insertion sort over the comparison the source
passes to it (`operator.itemgetter(*idx)` keys, lexicographic tuple
comparison, `reverse` reversing the comparison). Scalar values of a sort
key live in one column and are mutually comparable, modelled by a generic
linearly ordered type. -/

/-- Lexicographic comparison of key tuples, as python compares tuples
(and, for a single-column key, the scalar itself). -/
def lexLe {α : Type} [LinearOrder α] : List α → List α → Bool
  | [], _ => true
  | _ :: _, [] => false
  | a :: as, b :: bs => if a < b then true else if b < a then false else lexLe as bs

lemma lexLe_refl {α : Type} [LinearOrder α] (u : List α) : lexLe u u = true := by
  induction u with
  | nil => rfl
  | cons a as ih => simp [lexLe, ih]

lemma lexLe_cons_iff {α : Type} [LinearOrder α] (a b : α) (as bs : List α) :
    lexLe (a :: as) (b :: bs) = true ↔ a < b ∨ (a = b ∧ lexLe as bs = true) := by
  by_cases hab : a < b
  · simp [lexLe, hab]
  · by_cases hba : b < a
    · have hne : a ≠ b := fun he => absurd (he ▸ hba) (lt_irrefl a)
      simp [lexLe, hab, hba, hne]
    · have heq : a = b := le_antisymm (not_lt.mp hba) (not_lt.mp hab)
      simp [lexLe, hab, hba, heq]

lemma lexLe_total {α : Type} [LinearOrder α] (u v : List α)
    (h : lexLe u v = false) : lexLe v u = true := by
  induction u generalizing v with
  | nil => cases h
  | cons a as ih =>
      cases v with
      | nil => rfl
      | cons b bs =>
          by_cases hab : a < b
          · simp [lexLe, hab] at h
          · by_cases hba : b < a
            · simp [lexLe, hba]
            · have heq : a = b := le_antisymm (not_lt.mp hba) (not_lt.mp hab)
              simp only [lexLe, if_neg hab, if_neg hba] at h
              subst heq
              simp only [lexLe, if_neg hab, if_neg hba]
              exact ih bs h

lemma lexLe_trans {α : Type} [LinearOrder α] (u v w : List α)
    (huv : lexLe u v = true) (hvw : lexLe v w = true) : lexLe u w = true := by
  induction u generalizing v w with
  | nil => rfl
  | cons a as ih =>
      cases v with
      | nil => cases huv
      | cons b bs =>
          cases w with
          | nil => cases hvw
          | cons c cs =>
              rcases (lexLe_cons_iff a b as bs).mp huv with hab | ⟨hab, habs⟩
              · rcases (lexLe_cons_iff b c bs cs).mp hvw with hbc | ⟨hbc, -⟩
                · exact (lexLe_cons_iff a c as cs).mpr (Or.inl (lt_trans hab hbc))
                · exact (lexLe_cons_iff a c as cs).mpr (Or.inl (hbc ▸ hab))
              · rcases (lexLe_cons_iff b c bs cs).mp hvw with hbc | ⟨hbc, hbcs⟩
                · exact (lexLe_cons_iff a c as cs).mpr (Or.inl (hab ▸ hbc))
                · exact (lexLe_cons_iff a c as cs).mpr
                    (Or.inr ⟨hab.trans hbc, ih bs cs habs hbcs⟩)

/-- Insertion of one element into a sorted prefix, placing it *before* the
first element it compares less-or-equal to: the stable position, since the
inserted element came earlier in the input than everything in the prefix. -/
def sinsert {β : Type} (le : β → β → Bool) (x : β) : List β → List β
  | [] => [x]
  | y :: ys => if le x y then x :: y :: ys else y :: sinsert le x ys

/-- A stable sort by the total preorder `le`: the unique output every
stable sorting algorithm (python's timsort included) produces. -/
def isortBy {β : Type} (le : β → β → Bool) : List β → List β
  | [] => []
  | x :: xs => sinsert le x (isortBy le xs)

lemma mem_sinsert {β : Type} (le : β → β → Bool) (x z : β) (ys : List β) :
    z ∈ sinsert le x ys ↔ z = x ∨ z ∈ ys := by
  induction ys with
  | nil => simp [sinsert]
  | cons y ys ih =>
      by_cases h : le x y
      · simp [sinsert, h]
      · simp only [sinsert, if_neg h, List.mem_cons, ih]
        tauto

lemma sinsert_filter_pos {β : Type} (le : β → β → Bool) (p : β → Bool) (x : β)
    (hx : p x = true) (hskip : ∀ y, le x y = false → p y = false) :
    ∀ ys : List β, (sinsert le x ys).filter p = x :: ys.filter p := by
  intro ys
  induction ys with
  | nil => simp [sinsert, hx]
  | cons y ys ih =>
      by_cases h : le x y
      · simp [sinsert, h, List.filter_cons, hx]
      · have hy : p y = false := hskip y (Bool.not_eq_true _ ▸ h)
        simp [sinsert, h, List.filter_cons, hy, ih]

lemma sinsert_filter_neg {β : Type} (le : β → β → Bool) (p : β → Bool) (x : β)
    (hx : p x = false) :
    ∀ ys : List β, (sinsert le x ys).filter p = ys.filter p := by
  intro ys
  induction ys with
  | nil => simp [sinsert, hx]
  | cons y ys ih =>
      by_cases h : le x y
      · simp [sinsert, h, List.filter_cons, hx]
      · simp [sinsert, h, List.filter_cons, ih]

/-- Stability: filtering the sorted list on any class of elements that are
mutually tied under `le` gives the same subsequence as filtering the
input. -/
lemma isortBy_filter {β : Type} (le : β → β → Bool) (p : β → Bool)
    (hp : ∀ a b, p a = true → le a b = false → p b = false) (l : List β) :
    (isortBy le l).filter p = l.filter p := by
  induction l with
  | nil => rfl
  | cons x xs ih =>
      by_cases hx : p x
      · rw [isortBy, sinsert_filter_pos le p x hx (fun y hy => hp x y hx hy),
          ih, List.filter_cons, if_pos hx]
      · rw [isortBy, sinsert_filter_neg le p x (Bool.not_eq_true _ ▸ hx), ih,
          List.filter_cons, if_neg (by simpa using hx)]

lemma sinsert_pairwise {β : Type} (le : β → β → Bool)
    (htot : ∀ a b, le a b = false → le b a = true)
    (htrans : ∀ a b c, le a b = true → le b c = true → le a c = true)
    (x : β) :
    ∀ ys : List β, List.Pairwise (fun a b => le a b = true) ys →
      List.Pairwise (fun a b => le a b = true) (sinsert le x ys) := by
  intro ys
  induction ys with
  | nil =>
      intro _
      simp [sinsert]
  | cons y ys ih =>
      intro hp
      by_cases h : le x y
      · rw [sinsert, if_pos h]
        refine List.Pairwise.cons ?_ hp
        intro z hz
        rcases List.mem_cons.mp hz with he | hm
        · exact he ▸ h
        · exact htrans x y z h (List.rel_of_pairwise_cons hp hm)
      · rw [sinsert, if_neg h]
        refine List.Pairwise.cons ?_ (ih (List.Pairwise.sublist (List.sublist_cons_self y ys) hp))
        intro z hz
        rcases (mem_sinsert le x z ys).mp hz with he | hm
        · exact he ▸ htot x y (Bool.not_eq_true _ ▸ h)
        · exact List.rel_of_pairwise_cons hp hm

lemma isortBy_pairwise {β : Type} (le : β → β → Bool)
    (htot : ∀ a b, le a b = false → le b a = true)
    (htrans : ∀ a b c, le a b = true → le b c = true → le a c = true)
    (l : List β) :
    List.Pairwise (fun a b => le a b = true) (isortBy le l) := by
  induction l with
  | nil => exact List.Pairwise.nil
  | cons x xs ih => exact sinsert_pairwise le htot htrans x (isortBy le xs) ih

/-- A stable sort leaves an already-sorted list untouched. -/
lemma isortBy_of_pairwise {β : Type} (le : β → β → Bool) :
    ∀ l : List β, List.Pairwise (fun a b => le a b = true) l →
      isortBy le l = l := by
  intro l
  induction l with
  | nil => intro _; rfl
  | cons x xs ih =>
      intro hp
      rw [isortBy, ih (List.Pairwise.sublist (List.sublist_cons_self x xs) hp)]
      cases xs with
      | nil => rfl
      | cons y ys =>
          rw [sinsert, if_pos (List.rel_of_pairwise_cons hp (List.mem_cons_self y ys))]

lemma isortBy_idem {β : Type} (le : β → β → Bool)
    (htot : ∀ a b, le a b = false → le b a = true)
    (htrans : ∀ a b c, le a b = true → le b c = true → le a c = true)
    (l : List β) :
    isortBy le (isortBy le l) = isortBy le l :=
  isortBy_of_pairwise le _ (isortBy_pairwise le htot htrans l)

/-- An in-memory materialized relation over sortable scalars
(`csvq.relation.InMemoryRelation`): the original schema plus the stored,
mutable-order tuple list. -/
structure MemRel (α : Type) where
  attrs : List Attr
  data : List (List α)
deriving DecidableEq, Repr

/-- `idx = tuple(self.index(n) for n in key)` of `InMemoryRelation.sort`
(the `getD 0` default stands for the `KeyError` of an unknown column name,
ruled out by the sort theorem's hypothesis). -/
def keyIdxOf {α : Type} (rel : MemRel α) (key : Option (List String)) :
    Option (List ℕ) :=
  key.map (fun ks => ks.map (fun n => (dictIndex rel.attrs n).getD 0))

/-- The sort key of one row: `operator.itemgetter(*idx)` for an explicit
key, the whole tuple when no key is given. -/
def sortKeyFn {α : Type} [Inhabited α] (keyIdx : Option (List ℕ))
    (t : List α) : List α :=
  match keyIdx with
  | none => t
  | some idx => idx.map (fun i => t.getD i default)

/-- The total preorder `list.sort` is driven by: key comparison, reversed
in place of the comparison (not as a post-hoc list reversal) when
`reverse` is set. -/
def sortLe {α : Type} [LinearOrder α] [Inhabited α] (keyIdx : Option (List ℕ))
    (reverse : Bool) (a b : List α) : Bool :=
  if reverse then lexLe (sortKeyFn keyIdx b) (sortKeyFn keyIdx a)
  else lexLe (sortKeyFn keyIdx a) (sortKeyFn keyIdx b)

/-- `InMemoryRelation.sort(key, reverse)`: resolve the key columns, then
stable-sort the stored tuple list in place by the projected key. -/
def memSort {α : Type} [LinearOrder α] [Inhabited α] (rel : MemRel α)
    (key : Option (List String)) (reverse : Bool) : MemRel α :=
  ⟨rel.attrs, isortBy (sortLe (keyIdxOf rel key) reverse) rel.data⟩

lemma sortLe_total {α : Type} [LinearOrder α] [Inhabited α]
    (keyIdx : Option (List ℕ)) (reverse : Bool) (a b : List α)
    (h : sortLe keyIdx reverse a b = false) : sortLe keyIdx reverse b a = true := by
  cases reverse <;> simp only [sortLe, if_true, if_false, Bool.false_eq_true] at h ⊢ <;>
    exact lexLe_total _ _ h

lemma sortLe_trans {α : Type} [LinearOrder α] [Inhabited α]
    (keyIdx : Option (List ℕ)) (reverse : Bool) (a b c : List α)
    (hab : sortLe keyIdx reverse a b = true) (hbc : sortLe keyIdx reverse b c = true) :
    sortLe keyIdx reverse a c = true := by
  cases reverse <;> simp only [sortLe, if_true, if_false] at hab hbc ⊢
  · exact lexLe_trans _ _ _ hab hbc
  · exact lexLe_trans _ _ _ hbc hab

/-- C7: `InMemoryRelation.sort` is stable — the rows whose projected key
equals any fixed key value appear in the sorted data in exactly their
original relative order, with or without `reverse` — and idempotent:
sorting again with the identical key and reverse parameters leaves the
stored tuple list unchanged. -/
theorem C7_sort_stable_idempotent {α : Type} [LinearOrder α] [Inhabited α]
    (rel : MemRel α) (key : Option (List String)) (reverse : Bool)
    (hkey : ∀ ks, key = some ks →
      ks ≠ [] ∧ ∀ n ∈ ks, (dictIndex rel.attrs n).isSome = true) :
    (memSort rel key reverse).attrs = rel.attrs ∧
    (∀ K : List α,
      (memSort rel key reverse).data.filter
          (fun t => sortKeyFn (keyIdxOf rel key) t = K) =
        rel.data.filter (fun t => sortKeyFn (keyIdxOf rel key) t = K)) ∧
    memSort (memSort rel key reverse) key reverse = memSort rel key reverse := by
  clear hkey
  refine ⟨rfl, ?_, ?_⟩
  · intro K
    refine isortBy_filter _ _ ?_ rel.data
    intro a b ha hab
    by_contra hb
    have hbK : sortKeyFn (keyIdxOf rel key) b = K := by
      simpa using hb
    have haK : sortKeyFn (keyIdxOf rel key) a = K := by
      simpa using ha
    cases reverse <;>
      simp only [sortLe, if_true, if_false, haK, hbK, Bool.false_eq_true] at hab <;>
      exact absurd (lexLe_refl K) (by simp [hab])
  · show memSort ⟨rel.attrs, isortBy (sortLe (keyIdxOf rel key) reverse) rel.data⟩
        key reverse = memSort rel key reverse
    unfold memSort
    simp only [keyIdxOf]
    exact congrArg _ (isortBy_idem _ (sortLe_total _ reverse)
      (sortLe_trans _ reverse) rel.data)

/-- Relation of the C7 witness: two integer columns, four rows with tied
keys on column `a`. -/
def sortExampleRel : MemRel ℤ :=
  ⟨[⟨"a", Ty.int⟩, ⟨"b", Ty.int⟩], [[2, 1], [1, 5], [2, 0], [1, 7]]⟩

/-- C7 witness: sorting the concrete relation by column `a` is idempotent
and keeps the two key-1 rows in their original relative order. -/
theorem C7_sort_stable_idempotent_witness :
    memSort (memSort sortExampleRel (some ["a"]) false) (some ["a"]) false =
      memSort sortExampleRel (some ["a"]) false ∧
    (memSort sortExampleRel (some ["a"]) false).data.filter
        (fun t => sortKeyFn (keyIdxOf sortExampleRel (some ["a"])) t = [1]) =
      sortExampleRel.data.filter
        (fun t => sortKeyFn (keyIdxOf sortExampleRel (some ["a"])) t = [1]) := by
  have h := C7_sort_stable_idempotent sortExampleRel (some ["a"]) false (by
    intro ks hks
    injection hks with hks
    subst hks
    refine ⟨by simp, ?_⟩
    intro n hn
    rcases List.mem_cons.mp hn with he | hm
    · subst he
      rfl
    · cases hm)
  exact ⟨h.2.2, h.2.1 [1]⟩

/-! ## Natural hash join (`csvq.algebra.HashNaturalJoin`) -/

/-- Projection of a tuple onto a list of column indices
(`tuple(t[i] for i in idx)`, and `_join_row`'s appended right fields). -/
def projIdx (idx : List ℕ) (t : Tup) : Tup := idx.map (fun i => t.getD i default)

/-- `r.name() not in left_names` test of `HashNaturalJoin.__init__`,
against the probe (left) relation's name set. -/
def inLeft (L : Rel) (a : Attr) : Bool := (namesOf L.attrs).contains a.colName

/-- The constructor loop of `HashNaturalJoin.__init__` over
`enumerate(right.attributes())`: returns (right attributes kept for the
output, their right-side indices `idx_right`, shared attributes
`attr_intersection` in right order), or the `TypeError` for a shared name
with mismatched types. -/
def joinScan (L : Rel) : List (ℕ × Attr) → Except String (List Attr × List ℕ × List Attr)
  | [] => Except.ok ([], [], [])
  | (i, r) :: rest =>
      if inLeft L r then
        if (attrOf L.attrs r.colName).map Attr.ty = some r.ty then
          (joinScan L rest).map (fun acc => (acc.1, acc.2.1, r :: acc.2.2))
        else
          Except.error ("Incompatible types for " ++ r.colName)
      else
        (joinScan L rest).map (fun acc => (r :: acc.1, i :: acc.2.1, acc.2.2))

/-- One dict update of the hash-build loop: append the tuple to its key's
group, creating the group on `KeyError`. -/
def hashInsert (m : List (Tup × List Tup)) (k : Tup) (t : Tup) :
    List (Tup × List Tup) :=
  match m with
  | [] => [(k, [t])]
  | (k0, g) :: rest =>
      if k0 = k then (k0, g ++ [t]) :: rest else (k0, g) :: hashInsert rest k t

/-- `self._right_hash[key]` lookup (`none` models the `KeyError`). -/
def hashLookup (m : List (Tup × List Tup)) (k : Tup) : Option (List Tup) :=
  match m with
  | [] => none
  | (k0, g) :: rest => if k0 = k then some g else hashLookup rest k

/-- Reading the whole build side into the hash table
(`for t in right: ... v.append(t)`). -/
def hashBuild (kf : Tup → Tup) (ts : List Tup) : List (Tup × List Tup) :=
  ts.foldl (fun m t => hashInsert m (kf t) t) []

/-- `csvq.algebra.HashNaturalJoin`: scan the right schema, build the key
index lists, drain the build side into the hash table, then emit, for each
probe tuple in order, one joined row per build tuple in its key's group
(`KeyError` on the lookup emits nothing for that probe tuple). -/
def hashNaturalJoin (L R : Rel) : Except String Rel :=
  (joinScan L R.attrs.enum).map (fun acc =>
    let leftKey := acc.2.2.map (fun a => (dictIndex L.attrs a.colName).getD 0)
    let rightKey := acc.2.2.map (fun a => (dictIndex R.attrs a.colName).getD 0)
    let rightHash := hashBuild (projIdx rightKey) R.data
    ⟨L.attrs ++ acc.1,
     L.data.flatMap (fun l =>
       match hashLookup rightHash (projIdx leftKey l) with
       | none => []
       | some rs => rs.map (fun r => l ++ projIdx acc.2.1 r))⟩)

/-- Specification side: the shared (join-key) columns, in the build side's
original order. -/
def sharedAttrs (L R : Rel) : List Attr :=
  R.attrs.filter (fun a => inLeft L a)

/-- Specification side: the build-side positions of the columns whose names
do not occur in the probe schema, in original order. -/
def rightKeepIdx (L R : Rel) : List ℕ :=
  (R.attrs.enum.filter (fun p => !(inLeft L p.2))).map Prod.fst

/-- Specification side: a probe tuple's join-key projection. -/
def probeKey (L R : Rel) (l : Tup) : Tup :=
  projIdx ((sharedAttrs L R).map (fun a => (dictIndex L.attrs a.colName).getD 0)) l

/-- Specification side: a build tuple's join-key projection. -/
def buildKey (L R : Rel) (r : Tup) : Tup :=
  projIdx ((sharedAttrs L R).map (fun a => (dictIndex R.attrs a.colName).getD 0)) r

lemma enumFrom_filter_map_snd (q : Attr → Bool) :
    ∀ (l : List Attr) (n : ℕ),
      ((List.enumFrom n l).filter (fun p => q p.2)).map Prod.snd = l.filter q := by
  intro l
  induction l with
  | nil => intro n; rfl
  | cons a as ih =>
      intro n
      rw [List.enumFrom_cons, List.filter_cons, List.filter_cons]
      by_cases h : q a
      · simp only [h, if_pos, List.map_cons, ih (n + 1)]
      · simp only [h, Bool.false_eq_true, if_false, ih (n + 1)]

lemma joinScan_ok_elim (L : Rel) :
    ∀ (l : List (ℕ × Attr)) (un : List Attr) (idx : List ℕ) (inter : List Attr),
      joinScan L l = Except.ok (un, idx, inter) →
      un = (l.filter (fun p => !(inLeft L p.2))).map Prod.snd ∧
      idx = (l.filter (fun p => !(inLeft L p.2))).map Prod.fst ∧
      inter = (l.filter (fun p => inLeft L p.2)).map Prod.snd := by
  intro l
  induction l with
  | nil =>
      intro un idx inter h
      simp only [joinScan, Except.ok.injEq, Prod.mk.injEq] at h
      obtain ⟨h1, h2, h3⟩ := h
      exact ⟨h1.symm, h2.symm, h3.symm⟩
  | cons p rest ih =>
      intro un idx inter h
      obtain ⟨i, r⟩ := p
      by_cases hmem : inLeft L r
      · by_cases hty : (attrOf L.attrs r.colName).map Attr.ty = some r.ty
        · rw [joinScan, if_pos hmem, if_pos hty] at h
          cases hrest : joinScan L rest with
          | error e =>
              rw [hrest] at h
              cases h
          | ok acc =>
              rw [hrest] at h
              obtain ⟨u0, x0, n0⟩ := acc
              simp only [Except.map, Except.ok.injEq, Prod.mk.injEq] at h
              obtain ⟨h1, h2, h3⟩ := h
              obtain ⟨e1, e2, e3⟩ := ih u0 x0 n0 hrest
              subst h1 h2 h3
              refine ⟨?_, ?_, ?_⟩
              · rw [List.filter_cons]
                simp only [hmem, Bool.not_true, Bool.false_eq_true, if_false]
                exact e1
              · rw [List.filter_cons]
                simp only [hmem, Bool.not_true, Bool.false_eq_true, if_false]
                exact e2
              · rw [List.filter_cons]
                simp only [hmem, if_pos]
                rw [List.map_cons, ← e3]
        · rw [joinScan, if_pos hmem, if_neg hty] at h
          cases h
      · rw [joinScan, if_neg hmem] at h
        cases hrest : joinScan L rest with
        | error e =>
            rw [hrest] at h
            cases h
        | ok acc =>
            rw [hrest] at h
            obtain ⟨u0, x0, n0⟩ := acc
            simp only [Except.map, Except.ok.injEq, Prod.mk.injEq] at h
            obtain ⟨h1, h2, h3⟩ := h
            obtain ⟨e1, e2, e3⟩ := ih u0 x0 n0 hrest
            subst h1 h2 h3
            refine ⟨?_, ?_, ?_⟩
            · rw [List.filter_cons]
              simp only [hmem, Bool.not_false, if_pos]
              rw [List.map_cons, ← e1]
            · rw [List.filter_cons]
              simp only [hmem, Bool.not_false, if_pos]
              rw [List.map_cons, ← e2]
            · rw [List.filter_cons]
              simp only [hmem, Bool.false_eq_true, if_false]
              exact e3

lemma hashLookup_insert (m : List (Tup × List Tup)) (k k' : Tup) (t : Tup) :
    hashLookup (hashInsert m k' t) k =
      if k = k' then some ((hashLookup m k).getD [] ++ [t])
      else hashLookup m k := by
  induction m with
  | nil =>
      by_cases h : k = k'
      · subst h
        simp [hashInsert, hashLookup]
      · have h' : ¬(k' = k) := fun he => h he.symm
        simp [hashInsert, hashLookup, h, h']
  | cons p rest ih =>
      obtain ⟨k0, g⟩ := p
      by_cases h0 : k0 = k'
      · subst h0
        by_cases hk : k0 = k
        · subst hk
          simp [hashInsert, hashLookup]
        · have hkk : ¬(k = k0) := fun he => hk he.symm
          simp [hashInsert, hashLookup, hk, hkk]
      · by_cases hk : k0 = k
        · subst hk
          simp [hashInsert, hashLookup, h0]
        · simp [hashInsert, hashLookup, h0, hk, ih]

lemma hashLookup_build_aux (kf : Tup → Tup) :
    ∀ (ts : List Tup) (m : List (Tup × List Tup)) (k : Tup),
      hashLookup (ts.foldl (fun m t => hashInsert m (kf t) t) m) k =
        if ts.filter (fun t => kf t = k) = [] then hashLookup m k
        else some ((hashLookup m k).getD [] ++ ts.filter (fun t => kf t = k)) := by
  intro ts
  induction ts with
  | nil =>
      intro m k
      simp
  | cons t ts ih =>
      intro m k
      rw [List.foldl_cons, ih (hashInsert m (kf t) t) k, List.filter_cons,
        hashLookup_insert]
      by_cases hk : kf t = k
      · have hd : (decide (kf t = k)) = true := decide_eq_true hk
        have hk' : k = kf t := hk.symm
        rw [if_pos hd, if_pos hk']
        by_cases hf : ts.filter (fun t => kf t = k) = []
        · rw [if_pos hf, if_neg (List.cons_ne_nil t _), hf]
        · rw [if_neg hf, if_neg (List.cons_ne_nil t _)]
          simp [List.append_assoc]
      · have hd : ¬((decide (kf t = k)) = true) := by simpa using hk
        have hk' : ¬(k = kf t) := fun he => hk he.symm
        rw [if_neg hd, if_neg hk']

lemma hashLookup_build (kf : Tup → Tup) (ts : List Tup) (k : Tup) :
    hashLookup (hashBuild kf ts) k =
      if ts.filter (fun t => kf t = k) = [] then none
      else some (ts.filter (fun t => kf t = k)) := by
  unfold hashBuild
  rw [hashLookup_build_aux]
  by_cases hf : ts.filter (fun t => kf t = k) = []
  · rw [if_pos hf, if_pos hf]
    rfl
  · rw [if_neg hf, if_neg hf]
    rfl

/-- Probe (left) side of the spec's concrete join example. -/
def joinExampleL : Rel :=
  ⟨[⟨"Child", Ty.str⟩, ⟨"Father", Ty.str⟩],
   [[Value.vstr "Lisa", Value.vstr "Homer"], [Value.vstr "Bart", Value.vstr "Homer"]]⟩

/-- Build (right) side of the spec's concrete join example. -/
def joinExampleR : Rel :=
  ⟨[⟨"Father", Ty.str⟩, ⟨"Mother", Ty.str⟩],
   [[Value.vstr "Homer", Value.vstr "Marge"]]⟩

/-- C1: whenever the natural hash join constructs (no shared-name type
mismatch), the output schema is the probe schema followed by the build
columns whose names do not occur in the probe schema, in build order; the
output tuples enumerate, for each probe tuple in probe order, one joined
tuple per build tuple whose join-key projection equals the probe tuple's
(in the build side's original relative order, zero tuples when no build key
matches), each the probe tuple followed by the kept build fields. In
particular the Simpsons example joins to exactly the two expected rows. -/
theorem C1_hash_natural_join :
    (∀ (L R J : Rel), hashNaturalJoin L R = Except.ok J →
      J.attrs = L.attrs ++ R.attrs.filter (fun a => !(inLeft L a)) ∧
      J.data = L.data.flatMap (fun l =>
        (R.data.filter (fun r => buildKey L R r = probeKey L R l)).map
          (fun r => l ++ projIdx (rightKeepIdx L R) r))) ∧
    hashNaturalJoin joinExampleL joinExampleR =
      Except.ok ⟨[⟨"Child", Ty.str⟩, ⟨"Father", Ty.str⟩, ⟨"Mother", Ty.str⟩],
        [[Value.vstr "Lisa", Value.vstr "Homer", Value.vstr "Marge"],
         [Value.vstr "Bart", Value.vstr "Homer", Value.vstr "Marge"]]⟩ := by
  constructor
  · intro L R J h
    unfold hashNaturalJoin at h
    cases hscan : joinScan L R.attrs.enum with
    | error e =>
        rw [hscan] at h
        cases h
    | ok acc =>
        rw [hscan] at h
        obtain ⟨un, idx, inter⟩ := acc
        simp only [Except.map, Except.ok.injEq] at h
        subst h
        obtain ⟨e1, e2, e3⟩ := joinScan_ok_elim L R.attrs.enum un idx inter hscan
        have einter : inter = sharedAttrs L R := by
          rw [e3, sharedAttrs]
          exact enumFrom_filter_map_snd (fun a => inLeft L a) R.attrs 0
        have eidx : idx = rightKeepIdx L R := e2
        constructor
        · show L.attrs ++ un = L.attrs ++ R.attrs.filter (fun a => !(inLeft L a))
          rw [e1]
          exact congrArg _ (enumFrom_filter_map_snd (fun a => !(inLeft L a)) R.attrs 0)
        · show L.data.flatMap _ = L.data.flatMap _
          have hstep : ∀ l ∈ L.data,
              (match hashLookup
                  (hashBuild
                    (projIdx (inter.map (fun a => (dictIndex R.attrs a.colName).getD 0)))
                    R.data)
                  (projIdx (inter.map (fun a => (dictIndex L.attrs a.colName).getD 0)) l) with
               | none => []
               | some rs => rs.map (fun r => l ++ projIdx idx r)) =
              (R.data.filter (fun r => buildKey L R r = probeKey L R l)).map
                (fun r => l ++ projIdx (rightKeepIdx L R) r) := by
            intro l _
            rw [hashLookup_build, einter, eidx]
            have hpred : (fun r => decide
                (projIdx ((sharedAttrs L R).map
                    (fun a => (dictIndex R.attrs a.colName).getD 0)) r =
                  projIdx ((sharedAttrs L R).map
                    (fun a => (dictIndex L.attrs a.colName).getD 0)) l)) =
                (fun r => decide (buildKey L R r = probeKey L R l)) := rfl
            rw [hpred]
            by_cases hf : R.data.filter
                (fun r => buildKey L R r = probeKey L R l) = []
            · rw [if_pos hf, hf]
              rfl
            · rw [if_neg hf]
          show (L.data.map _).flatten = (L.data.map _).flatten
          exact congrArg List.flatten (List.map_congr_left hstep)
  · rfl

/-- C1 witness: the universal join characterization applied to the concrete
Simpsons relations, whose construction hypothesis is discharged by the
example conjunct itself. -/
theorem C1_hash_natural_join_witness :
    (Rel.mk [⟨"Child", Ty.str⟩, ⟨"Father", Ty.str⟩, ⟨"Mother", Ty.str⟩]
        [[Value.vstr "Lisa", Value.vstr "Homer", Value.vstr "Marge"],
         [Value.vstr "Bart", Value.vstr "Homer", Value.vstr "Marge"]]).attrs =
      joinExampleL.attrs ++
        joinExampleR.attrs.filter (fun a => !(inLeft joinExampleL a)) :=
  (C1_hash_natural_join.1 joinExampleL joinExampleR _ C1_hash_natural_join.2).1

/-- Input of the C2 counterexample: schema `(A: str, B: str)`, one tuple. -/
def renameExampleRel : Rel :=
  ⟨[⟨"A", Ty.str⟩, ⟨"B", Ty.str⟩], [[Value.vstr "x", Value.vstr "y"]]⟩

/-- Renaming map `{A: B}` of the C2 counterexample. -/
def renameExampleSubs : String → Option String :=
  fun n => if n = "A" then some "B" else none

/-- C6: selection acts as a filter. The schema of `Selection` equals the
input schema, its tuple sequence is exactly the input tuples satisfying the
predicate in their original relative order, and the tuple counts of the
selection under `p` and under `not p` sum to the input's tuple count. -/
theorem C6_selection_is_filter (r : Rel) (p : Tup → Bool) :
    (selection r p).attrs = r.attrs ∧
    (selection r p).data = r.data.filter p ∧
    (selection r p).data.length + (selection r (fun t => !(p t))).data.length
      = r.data.length := by
  refine ⟨rfl, selectionRun_eq_filter p r.data, ?_⟩
  show (selectionRun p r.data).length + (selectionRun (fun t => !(p t)) r.data).length
      = r.data.length
  rw [selectionRun_eq_filter, selectionRun_eq_filter]
  exact length_filter_add_length_filter_not p r.data

/-- C10: on an empty tuple source `scalar` and `vector` return the no-value
result instead of raising; on a non-empty source `scalar` returns the first
column of the first tuple and `vector` returns the entire first tuple. -/
theorem C10_scalar_vector_empty_and_nonempty :
    (scalarOf [] = Except.ok none ∧ vectorOf [] = none) ∧
    (∀ (v : Value) (vs : Tup) (rest : List Tup),
      scalarOf ((v :: vs) :: rest) = Except.ok (some v) ∧
      vectorOf ((v :: vs) :: rest) = some (v :: vs)) :=
  ⟨⟨rfl, rfl⟩, fun _ _ _ => ⟨rfl, rfl⟩⟩

/-- C2 counterexample: the claim asserts that a renaming producing two
equal column names makes construction fail with a `DuplicateColumn` error.
In the code `Rename.__init__` performs no such check: renaming `A ↦ B` on
schema `(A: str, B: str)` succeeds, yields the duplicate-named schema
`(B: str, B: str)`, and the tuples still pass through. -/
theorem C2_rename_counterexample :
    renameRel renameExampleRel renameExampleSubs =
      ⟨[⟨"B", Ty.str⟩, ⟨"B", Ty.str⟩], [[Value.vstr "x", Value.vstr "y"]]⟩ ∧
    ¬ (namesOf (renameRel renameExampleRel renameExampleSubs).attrs).Nodup := by
  constructor
  · rfl
  · decide

/-- C2 amended: `Rename` performs no duplicate-name check, so construction
never fails; the output schema replaces only the names of mapped columns
(keeping their types), every unmapped column keeps its descriptor, and the
tuples pass through unchanged. -/
theorem C2_rename_amended (r : Rel) (subs : String → Option String) :
    (renameRel r subs).data = r.data ∧
    (renameRel r subs).attrs.length = r.attrs.length ∧
    ∀ (i : ℕ) (a : Attr), r.attrs[i]? = some a →
      (renameRel r subs).attrs[i]? =
        some ⟨(subs a.colName).getD a.colName, a.ty⟩ := by
  refine ⟨rfl, by simp [renameRel], ?_⟩
  intro i a ha
  simp only [renameRel, List.getElem?_map, ha, Option.map_some]
  cases h : subs a.colName with
  | none => simp [renameAttr, h]
  | some n => simp [renameAttr, h]

/-- C2 witness: the amended theorem applied to the concrete example relation,
showing the mapped column's name is replaced while its type is kept. -/
theorem C2_rename_amended_witness :
    (renameRel renameExampleRel renameExampleSubs).attrs[0]? =
      some ⟨"B", Ty.str⟩ := by
  have h := (C2_rename_amended renameExampleRel renameExampleSubs).2.2 0
    ⟨"A", Ty.str⟩ rfl
  simpa [renameExampleSubs] using h

end Csvq
